import Mathlib

/-!
Verification of the wget-clone mirroring engine against its specification.

The Go source is shallowly embedded: Go strings are `List Char`, pure Go
functions become Lean functions with the same structure, and the recursive
`ProcessUrl` crawl is embedded as a fuel-indexed state-passing function over
an abstract network oracle.  Machine integers are modelled as `Nat`/`Int`
with explicit range or wrap handling where the Go code can overflow.
-/

namespace Wget

/-- Model of Go `strings.Split(s, sep)` for a one-character separator:
accumulator-based split, returning at least one (possibly empty) piece. -/
def goSplitAux (sep : Char) : List Char → List Char → List (List Char)
  | [], acc => [acc.reverse]
  | c :: cs, acc =>
    if c = sep then acc.reverse :: goSplitAux sep cs [] else goSplitAux sep cs (c :: acc)

/-- Go `strings.Split(s, string(sep))`. -/
def goSplit (sep : Char) (l : List Char) : List (List Char) := goSplitAux sep l []

/-- Go `strings.TrimPrefix(s, pre)`: drop `pre` when it is a leading part of `s`. -/
def goTrimPrefixL (pre l : List Char) : List Char :=
  if pre.isPrefixOf l then l.drop pre.length else l

/-- Go `strings.HasSuffix(s, suf)`. -/
def goHasSuffixL (l suf : List Char) : Bool := suf.reverse.isPrefixOf l.reverse

/-- Go `strings.TrimSuffix(s, suf)`. -/
def goTrimSuffixL (l suf : List Char) : List Char :=
  if goHasSuffixL l suf then l.take (l.length - suf.length) else l

/-- Go `strings.Trim(s, "/")`: remove leading and trailing slashes. -/
def trimSlashes (l : List Char) : List Char :=
  ((l.dropWhile (fun c => c = '/')).reverse.dropWhile (fun c => c = '/')).reverse

/-- Go `strings.Contains(s, sub)`: some tail of `s` starts with `sub`. -/
def containsSub (l sub : List Char) : Bool := l.tails.any (fun t => sub.isPrefixOf t)

/-- Go `strings.ToLower` restricted to ASCII, which is all the source compares. -/
def goToLower (l : List Char) : List Char := l.map Char.toLower

/-- Go `strings.EqualFold` for the ASCII keyword comparisons in the source
(the exotic Unicode foldings of `EqualFold` never arise for these keywords). -/
def goEqualFold (a b : List Char) : Bool := a.map Char.toLower = b.map Char.toLower

/-- Scan a reversed path for `filepath.Ext`: walk from the end of the path,
stop at a separator, return the suffix from the final dot (forward order). -/
def extRevAux : List Char → List Char → List Char
  | [], _ => []
  | c :: cs, acc =>
    if c = '/' then []
    else if c = '.' then '.' :: acc
    else extRevAux cs (c :: acc)

/-- Go `filepath.Ext(path)`: suffix beginning at the final dot in the final
slash-separated element of `path`; empty if there is no dot. -/
def goExtL (p : List Char) : List Char := extRevAux p.reverse []

/-- Source `hasFileExtension` (mirror.go): `Ext(path) != "" && !strings.Contains(ext, "/")`. -/
def hasFileExtension (p : List Char) : Bool :=
  goExtL p ≠ [] && !(containsSub (goExtL p) ['/'])

/-- Go `filepath.Clean` (unix): collapse slashes, drop `.`, resolve `..`
lexically, preserve rootedness, return `.` for an empty result. -/
def goCleanL (p : List Char) : List Char :=
  if p = [] then ['.']
  else
    let rooted := p.head? = some '/'
    let segs := (goSplit '/' p).filter (fun s => s ≠ [] && s ≠ ['.'])
    let out := segs.foldl (fun acc s =>
      if s = ['.', '.'] then
        match acc with
        | [] => if rooted then [] else [s]
        | t :: rest => if t = ['.', '.'] then s :: t :: rest else rest
      else s :: acc) []
    let body := List.intercalate ['/'] out.reverse
    if rooted then '/' :: body
    else if body = [] then ['.'] else body

/-- Go `filepath.Join(elems...)`: drop empty elements, join with `/`, `Clean`;
empty when every element is empty. -/
def goJoin (elems : List (List Char)) : List Char :=
  let ne := elems.filter (fun e => e ≠ [])
  if ne = [] then [] else goCleanL (List.intercalate ['/'] ne)

/-- Go `filepath.Dir(path)`: everything up to the final element, `Clean`ed;
`.` when the path has no separator. -/
def goDirL (p : List Char) : List Char :=
  let r := p.reverse.dropWhile (fun c => c ≠ '/')
  if r = [] then ['.'] else goCleanL r.reverse

/-- Drop the longest common leading run of two segment lists. -/
def dropCommonSegs : List (List Char) → List (List Char) → List (List Char) × List (List Char)
  | a :: as1, b :: bs1 =>
    if a = b then dropCommonSegs as1 bs1 else (a :: as1, b :: bs1)
  | as1, bs1 => (as1, bs1)

/-- Go `filepath.Rel(base, target)` on the clean, `..`-free paths produced by
the path mapper: strip the common segment run, then climb with `..` and
descend into the remaining target segments.  `none` models Go's error return
(rootedness mismatch), on which the caller falls back to an absolute path. -/
def goRelL (base targ : List Char) : Option (List Char) :=
  let b := goCleanL base
  let t := goCleanL targ
  if b = t then some ['.']
  else if (b.head? = some '/') ≠ (t.head? = some '/') then none
  else
    let bs := if b = ['.'] then [] else (goSplit '/' b).filter (fun s => s ≠ [])
    let ts := if t = ['.'] then [] else (goSplit '/' t).filter (fun s => s ≠ [])
    let (brest, trest) := dropCommonSegs bs ts
    if brest.any (fun s => s = ['.', '.']) then none
    else some (List.intercalate ['/'] (List.replicate brest.length ['.', '.'] ++ trest))

/-! ## Numeric segments and the path mapper (mirror.go `convertToLocalPath`) -/

/-- Decimal value of a digit run (most significant first). -/
def digitsVal (l : List Char) : Nat := l.foldl (fun a c => a * 10 + (c.toNat - 48)) 0

/-- Source `isNumeric` (mirror.go): `strconv.Atoi(s)` succeeds, i.e. an
optionally signed decimal integer that fits in a 64-bit int. -/
def isNumericGo (s : List Char) : Bool :=
  match s with
  | '-' :: body => body ≠ [] && body.all Char.isDigit && digitsVal body ≤ 2 ^ 63
  | '+' :: body => body ≠ [] && body.all Char.isDigit && digitsVal body ≤ 2 ^ 63 - 1
  | body => body ≠ [] && body.all Char.isDigit && digitsVal body ≤ 2 ^ 63 - 1

/-- Source `containsNumericID` (mirror.go): some `/`-separated part of the
full path is accepted by `strconv.Atoi`. -/
def containsNumericID (path : List Char) : Bool :=
  (goSplit '/' path).any isNumericGo

/-- The fixed dynamic-route keyword list of source `containsDynamicSegments`. -/
def dynamicPatterns : List (List Char) :=
  ["api".toList, "v1".toList, "v2".toList, "v3".toList, "blob".toList, "tree".toList,
   "branch".toList, "tag".toList, "commit".toList, "pull".toList,
   "issues".toList, "wiki".toList, "raw".toList, "edit".toList]

/-- Source `containsDynamicSegments` (mirror.go): some part case-insensitively
equals a dynamic-route keyword (`strings.EqualFold`). -/
def containsDynamicSegments (parts : List (List Char)) : Bool :=
  parts.any (fun part => dynamicPatterns.any (fun pat => goEqualFold part pat))

/-- Model of a parsed Go `url.URL` restricted to the components the source
reads: scheme, host, path, raw query and fragment. -/
structure GoURL where
  scheme : List Char
  host : List Char
  path : List Char
  query : List Char
  fragment : List Char
deriving DecidableEq

/-- Source `convertToLocalPath` (mirror.go lines 415-446), translated branch
for branch: extension rule, dynamic-route rule, then the default rule with
`index.html` appended for empty / host-root / slash-terminated /
extension-less results. -/
def convertToLocalPath (u : GoURL) : List Char :=
  let cleanPath := u.path
  let parts := goSplit '/' (goTrimPrefixL ['/'] cleanPath)
  let dflt :=
    let p := goJoin [u.host, goTrimPrefixL ['/'] cleanPath]
    if p = u.host || goHasSuffixL p ['/'] || !hasFileExtension p then
      goJoin [p, "index.html".toList]
    else p
  if parts.length > 0 then
    if hasFileExtension (parts.getLastD []) then goJoin [u.host, cleanPath]
    else if containsNumericID cleanPath || containsDynamicSegments parts then
      goJoin [u.host, "pages".toList, cleanPath, "index.html".toList]
    else dflt
  else dflt

/-- The three path-mapping rules exactly as the specification words them,
parameterised by the reading of "purely numeric segment".  Path segments are
the RFC 3986 segments of the URL path (split on `/` after the leading slash,
keeping a possible empty trailing segment). -/
def specLocalPath (numeric : List Char → Bool) (u : GoURL) : List Char :=
  let segs := goSplit '/' (goTrimPrefixL ['/'] u.path)
  if hasFileExtension (segs.getLastD []) then
    goJoin [u.host, u.path]
  else if segs.any (fun s => numeric s || dynamicPatterns.any (fun pat => goEqualFold s pat)) then
    goJoin [u.host, "pages".toList, u.path, "index.html".toList]
  else
    let p := goJoin [u.host, goTrimPrefixL ['/'] u.path]
    if p = [] || p = u.host || goHasSuffixL p ['/'] || !hasFileExtension p then
      goJoin [p, "index.html".toList]
    else p

/-- The literal reading of the specification's "purely numeric segment":
a non-empty run of decimal digits. -/
def digitsOnly (s : List Char) : Bool := s ≠ [] && s.all Char.isDigit

/-! ## URL serialization, canonical keys and reference resolution -/

/-- Model of `url.URL.String()` for the common-form URLs the mirror handles:
`scheme:`, `//host` when a host is present, then path, `?query`, `#fragment`. -/
def urlString (u : GoURL) : List Char :=
  (if u.scheme ≠ [] then u.scheme ++ [':'] else [])
    ++ (if u.host ≠ [] then '/' :: '/' :: u.host else [])
    ++ u.path
    ++ (if u.query ≠ [] then '?' :: u.query else [])
    ++ (if u.fragment ≠ [] then '#' :: u.fragment else [])

/-- The visited-set key built by `ProcessUrl` (mirror.go lines 75-78): the
URL with `Fragment` and `RawQuery` both cleared, then serialized. -/
def urlKey (u : GoURL) : List Char :=
  urlString { u with query := [], fragment := [] }

/-- Split at the first occurrence of a separator character, dropping it;
the whole input and an empty remainder when the separator is absent. -/
def splitOnceChar (sep : Char) : List Char → List Char × List Char
  | [] => ([], [])
  | c :: cs =>
    if c = sep then ([], cs)
    else
      let r := splitOnceChar sep cs
      (c :: r.1, r.2)

/-- Locate a leading `scheme://` in a reference string. -/
def findSchemeSplit : List Char → Option (List Char × List Char)
  | ':' :: '/' :: '/' :: r => some ([], r)
  | c :: cs =>
    match findSchemeSplit cs with
    | some (s, r) => some (c :: s, r)
    | none => none
  | [] => none

/-- Model of `url.Parse` on the reference forms the mirror encounters:
optional fragment and query, then either `scheme://host`, a protocol-relative
`//host`, or a bare (absolute or relative) path. -/
def parseRef (s : List Char) : GoURL :=
  let bf := splitOnceChar '#' s
  let bq := splitOnceChar '?' bf.1
  if ['/', '/'].isPrefixOf bq.1 then
    let rest := bq.1.drop 2
    ⟨[], rest.takeWhile (fun c => c ≠ '/'), rest.dropWhile (fun c => c ≠ '/'), bq.2, bf.2⟩
  else
    match findSchemeSplit bq.1 with
    | some (sch, rest) =>
      ⟨sch, rest.takeWhile (fun c => c ≠ '/'), rest.dropWhile (fun c => c ≠ '/'), bq.2, bf.2⟩
    | none => ⟨[], [], bq.1, bq.2, bf.2⟩

/-- RFC 3986 `remove_dot_segments` on a rooted path, as applied by Go's
`resolvePath`: `.` segments vanish, `..` pops, a trailing dot segment leaves
a trailing slash.  The mirror only resolves dot-free paths, where this is
the identity up to the shared rooting. -/
def removeDotSegs (p : List Char) : List Char :=
  let segs := goSplit '/' (goTrimPrefixL ['/'] p)
  let stack := segs.foldl (fun acc s =>
    if s = ['.'] then acc
    else if s = ['.', '.'] then acc.tail
    else s :: acc) []
  let segs1 := stack.reverse
  let segs2 :=
    if (match segs.getLast? with
        | some s => s = ['.'] || s = ['.', '.']
        | none => false) then segs1 ++ [[]] else segs1
  '/' :: List.intercalate ['/'] segs2

/-- Go `net/url.resolvePath(base, ref)`: pick or merge the paths, then
normalize dot segments. -/
def resolvePathGo (base ref : List Char) : List Char :=
  let full :=
    if ref = [] then base
    else if ref.head? = some '/' then ref
    else (base.reverse.dropWhile (fun c => c ≠ '/')).reverse ++ ref
  if full = [] then [] else removeDotSegs full

/-- Source `resolveURL` / Go `URL.ResolveReference(ref)` restricted to the
components the model carries (no userinfo, opaque data or force-query). -/
def resolveRef (base ref : GoURL) : GoURL :=
  if ref.scheme ≠ [] || ref.host ≠ [] then
    ⟨(if ref.scheme = [] then base.scheme else ref.scheme), ref.host,
      resolvePathGo ref.path [], ref.query, ref.fragment⟩
  else
    let q := if ref.path = [] && ref.query = [] then base.query else ref.query
    let fr :=
      if ref.path = [] && ref.query = [] && ref.fragment = [] then base.fragment
      else ref.fragment
    ⟨base.scheme, base.host, resolvePathGo base.path ref.path, q, fr⟩

/-- Source `convertLinkPath` (mirror.go lines 449-474): external references
keep their absolute URL; same-host references map to the forward-slash
relative path from the directory of the base page's local file to the
reference's local file, falling back to `/`-prefixed local path when
`filepath.Rel` fails. -/
def convertLinkPath (base ref : GoURL) : List Char :=
  if (ref.scheme ≠ [] || ref.host ≠ []) && ref.host ≠ base.host then urlString ref
  else
    let localPath := convertToLocalPath ref
    let basePath := convertToLocalPath base
    let baseDir := goDirL basePath
    match goRelL baseDir localPath with
    | some rel => rel.map (fun c => if c = Char.ofNat 92 then '/' else c)
    | none => '/' :: localPath

/-! ## CSS `url(...)` extraction and rewriting (mirror.go lines 359-399, 526-537) -/

/-- A single quote character, and a double quote character. -/
def sq : Char := Char.ofNat 39

/-- The double quote character. -/
def dq : Char := Char.ofNat 34

/-- Attempt the pattern of source `extractURLsFromCSS`'s regular expression
at the head of the input: literal `url(`, an optional quote, a non-empty run
of characters outside quote/`)` (the capture), an optional quote, `)`.
Returns the capture and the input remaining after the whole match. -/
def cssMatchAt (l : List Char) : Option (List Char × List Char) :=
  match l with
  | 'u' :: 'r' :: 'l' :: '(' :: rest =>
    let rest1 :=
      match rest with
      | c :: cs => if c = sq || c = dq then cs else rest
      | [] => rest
    let cap := rest1.takeWhile (fun c => c ≠ sq && c ≠ dq && c ≠ ')')
    let rest2 := rest1.dropWhile (fun c => c ≠ sq && c ≠ dq && c ≠ ')')
    if cap = [] then none
    else
      match rest2 with
      | ')' :: tl => some (cap, tl)
      | c :: ')' :: tl => if c = sq || c = dq then some (cap, tl) else none
      | _ => none
  | _ => none

/-- Scan for every non-overlapping match, resuming after each match as Go's
`FindAllStringSubmatch` does.  The fuel is the input length, which bounds the
number of steps. -/
def extractCSSAux : Nat → List Char → List (List Char)
  | 0, _ => []
  | _ + 1, [] => []
  | f + 1, c :: cs =>
    match cssMatchAt (c :: cs) with
    | some (cap, rest) => cap :: extractCSSAux f rest
    | none => extractCSSAux f cs

/-- Source `extractURLsFromCSS`: the captures of
`url\(` `['"]?` `([^'"\)]+)` `['"]?` `\)` over the stylesheet body. -/
def extractURLsFromCSS (css : List Char) : List (List Char) :=
  extractCSSAux css.length css

/-- Replace every non-overlapping occurrence of a non-empty pattern,
left to right, fuelled by the input length. -/
def replaceAux (pat rep : List Char) : Nat → List Char → List Char
  | 0, l => l
  | _ + 1, [] => []
  | f + 1, c :: cs =>
    if pat.isPrefixOf (c :: cs) then rep ++ replaceAux pat rep f ((c :: cs).drop pat.length)
    else c :: replaceAux pat rep f cs

/-- Go `strings.ReplaceAll(s, pat, rep)` for the non-empty patterns the
source builds. -/
def goReplaceAll (s pat rep : List Char) : List Char := replaceAux pat rep s.length s

/-- The literal `url('x')` pattern with a given quote character. -/
def urlPatQ (q : Char) (s : List Char) : List Char :=
  'u' :: 'r' :: 'l' :: '(' :: q :: s ++ [q, ')']

/-- The literal bare `url(x)` pattern. -/
def urlPatBare (s : List Char) : List Char := 'u' :: 'r' :: 'l' :: '(' :: s ++ [')']

/-- The replacement the source actually writes for a bare reference
(mirror.go line 376, and identically lines 273 and 319): `url(x')` — note
the stray quote before the closing parenthesis. -/
def urlRepBareSrc (s : List Char) : List Char := 'u' :: 'r' :: 'l' :: '(' :: s ++ [sq, ')']

/-- The CSS-body pass of `ProcessUrl` (mirror.go lines 361-392) restricted to
its rewriting effect: extract the `url(...)` references once, then for each
same-host reference replace its single-quoted, double-quoted and bare forms
in sequence (the bare replacement with the source's stray quote).  Fetch
dispatch for the children is modelled separately by the crawl embedding. -/
def rewriteCSSContent (convertLinks : Bool) (baseHost : List Char) (base : GoURL)
    (css : List Char) : List Char :=
  (extractURLsFromCSS css).foldl (fun content cssURL =>
    let absU := resolveRef base (parseRef cssURL)
    if absU.host = baseHost then
      if convertLinks then
        let localPath := convertLinkPath base absU
        let c1 := goReplaceAll content (urlPatQ sq cssURL) (urlPatQ sq localPath)
        let c2 := goReplaceAll c1 (urlPatQ dq cssURL) (urlPatQ dq localPath)
        goReplaceAll c2 (urlPatBare cssURL) (urlRepBareSrc localPath)
      else content
    else content) css

/-! ## Rate-limit string parsing (utils/parser.go) -/

/-- Source `ParseInt` / `fmt.Sscanf("%d")`: skip leading spaces, optional
sign, a non-empty digit run (trailing input ignored), range-checked against
a 64-bit signed integer. -/
def goSscanfInt (s : List Char) : Option Int :=
  let s1 := s.dropWhile (fun c => c = ' ' || c = Char.ofNat 9 || c = Char.ofNat 10)
  let signed : Bool × List Char :=
    match s1 with
    | '-' :: r => (true, r)
    | '+' :: r => (false, r)
    | r => (false, r)
  let digs := signed.2.takeWhile Char.isDigit
  if digs = [] then none
  else
    let v : Int := (digitsVal digs : Nat)
    let sv := if signed.1 then -v else v
    if sv < -(2 ^ 63) || sv > 2 ^ 63 - 1 then none else some sv

/-- Wrap an unbounded integer into the signed 64-bit range, as Go's `int64`
multiplication does. -/
def wrap64 (z : Int) : Int := (z + 2 ^ 63) % 2 ^ 64 - 2 ^ 63

/-- Source `ParseRateLimit` (utils/parser.go): lowercase, strip a `k` or `m`
suffix selecting a 1024 or 1024² multiplier, parse the remainder, multiply. -/
def ParseRateLimit (rateLimit : List Char) : Option Int :=
  let r1 := goToLower rateLimit
  let mr : Int × List Char :=
    if goHasSuffixL r1 ['k'] then (1024, goTrimSuffixL r1 ['k'])
    else if goHasSuffixL r1 ['m'] then (1024 * 1024, goTrimSuffixL r1 ['m'])
    else (1, r1)
  match goSscanfInt mr.2 with
  | none => none
  | some v => some (wrap64 (v * mr.1))

/-! ## Rate-limited writer timing (download/ratelimit.go) -/

/-- Source `RateLimitedWriter.Write`'s expected duration for `n` bytes:
`time.Duration(n) * time.Second / time.Duration(bandwidth)` in integer
nanoseconds. -/
def expectedWriteTime (n bandwidth : Nat) : Nat := n * 1000000000 / bandwidth

/-- The sleep the writer performs after a successful underlying write that
took `elapsed` nanoseconds. -/
def sleepDuration (n bandwidth elapsed : Nat) : Nat :=
  if elapsed < expectedWriteTime n bandwidth then expectedWriteTime n bandwidth - elapsed
  else 0

/-- Total wall-clock nanoseconds one `Write` call occupies. -/
def writeDuration (n bandwidth elapsed : Nat) : Nat :=
  elapsed + sleepDuration n bandwidth elapsed

/-- Total wall-clock nanoseconds of a sequence of writes, each given as
(byte count, elapsed time of the underlying write). -/
def totalDuration (bandwidth : Nat) (writes : List (Nat × Nat)) : Nat :=
  writes.foldl (fun acc w => acc + writeDuration w.1 bandwidth w.2) 0

/-! ## The crawl engine (mirror.go `ProcessUrl`)

`ProcessUrl` is sequential recursion over shared state: a visited-key map, a
depth counter incremented around each child call, and the side effect of one
HTTP request per URL that passes the checks.  The embedding passes the state
explicitly, carries the depth as an argument (the `currentDepth++ ... --`
bracketing around each recursive call), logs each issued HTTP request in
`fetched`, and abstracts the network as an oracle from URLs to responses.
File saving and attribute rewriting have no effect on which URLs are fetched
and are elided; the reject-type list only toggles the save flag and is
likewise elided, while the hard-coded skipped extensions are kept. -/

/-- The branch of `ProcessUrl` a response's `Content-Type` selects. -/
inductive ContentKind
  | html
  | css
  | other
deriving DecidableEq

/-- One HTTP response: status code, content-type branch, and the child URLs
the link extractor resolves out of the body (absolute, as produced by
`resolveURL`). -/
structure FetchResult where
  status : Nat
  kind : ContentKind
  links : List GoURL
deriving DecidableEq

/-- The configuration fields of `MirrorOptions` the fetch decision reads. -/
structure MirrorOptions where
  baseHost : List Char
  maxDepth : Nat
  excludePaths : List (List Char)
deriving DecidableEq

/-- The mutable crawl state: visited canonical keys, plus the log of URLs for
which an HTTP request has been issued (in order). -/
structure CrawlState where
  visited : List (List Char)
  fetched : List GoURL
deriving DecidableEq

/-- The analytics skip applied to `href`/`src` children
(mirror.go lines 227-230). -/
def containsAnalytics (u : GoURL) : Bool :=
  containsSub (urlString u) "google-analytics.com".toList
    || containsSub (urlString u) "analytics.js".toList

/-- The exclude-path test (mirror.go lines 103-111): the slash-trimmed URL
path starts with some slash-trimmed exclude entry. -/
def matchesExclude (excludePaths : List (List Char)) (path : List Char) : Bool :=
  excludePaths.any (fun e => (trimSlashes e).isPrefixOf (trimSlashes path))

/-- The hard-coded skipped extensions (mirror.go line 143): the lowercased,
dot-trimmed extension is `exe`, `zip`, `pdf` or `dmg`. -/
def isSkippedExt (path : List Char) : Bool :=
  let ext0 := goToLower (goExtL path)
  let ext1 := if ext0 ≠ [] then goTrimPrefixL ['.'] ext0 else ext0
  ext1 = "exe".toList || ext1 = "zip".toList || ext1 = "pdf".toList || ext1 = "dmg".toList

/-- The child loop shared by the HTML attribute walk (with the analytics
skip) and the CSS passes (without it): each resolved child is recursed into
only when its host equals `baseHost` and its canonical key is not already
visited, with the depth incremented for the duration of the child call.
The recursive processor is a parameter so the definition is structural. -/
def processChildren (rec : Nat → CrawlState → GoURL → CrawlState)
    (baseHost : List Char) (skipAnalytics : Bool) (depth : Nat) :
    CrawlState → List GoURL → CrawlState
  | st, [] => st
  | st, c :: cs =>
    let st1 :=
      if skipAnalytics && containsAnalytics c then st
      else if c.host = baseHost then
        if urlKey c ∈ st.visited then st
        else rec (depth + 1) st c
      else st
    processChildren rec baseHost skipAnalytics depth st1 cs

/-- Source `ProcessUrl` (mirror.go lines 67-403), fuelled: mark the canonical
key visited (before every other check), bail out on the depth bound, foreign
host, `/js/` path, exclude list or skipped extension, otherwise issue the
HTTP request; on a 200 response, recurse into the extracted children of an
HTML or CSS body. -/
def processUrl (web : GoURL → Option FetchResult) (m : MirrorOptions) :
    Nat → Nat → CrawlState → GoURL → CrawlState
  | 0, _, st, _ => st
  | fuel + 1, depth, st, u =>
    if urlKey u ∈ st.visited then st
    else
      let st1 : CrawlState := ⟨urlKey u :: st.visited, st.fetched⟩
      if m.maxDepth < depth then st1
      else if u.host ≠ [] ∧ u.host ≠ m.baseHost then st1
      else if containsSub u.path "/js/".toList then st1
      else if matchesExclude m.excludePaths u.path then st1
      else if isSkippedExt u.path then st1
      else
        let st2 : CrawlState := ⟨st1.visited, st1.fetched ++ [u]⟩
        match web u with
        | none => st2
        | some r =>
          if r.status ≠ 200 then st2
          else
            match r.kind with
            | .html => processChildren (processUrl web m fuel) m.baseHost true depth st2 r.links
            | .css => processChildren (processUrl web m fuel) m.baseHost false depth st2 r.links
            | .other => st2

/-- A whole mirror run: `Mirror()` processes the seed from an empty visited
set at depth 0, with the default depth bound 5 set by `NewMirrorOptions`. -/
def mirrorRun (web : GoURL → Option FetchResult) (m : MirrorOptions) (fuel : Nat)
    (seed : GoURL) : CrawlState :=
  processUrl web m fuel 0 ⟨[], []⟩ seed

/-- State extension: the visited set only grows and the fetch log is only
appended to. -/
def StExt (a b : CrawlState) : Prop :=
  (∀ k ∈ a.visited, k ∈ b.visited) ∧ ∃ t, b.fetched = a.fetched ++ t

/-- The at-most-once invariant: the fetch log carries pairwise distinct
canonical keys, each of which is already marked visited. -/
def KeysOk (st : CrawlState) : Prop :=
  st.fetched.Pairwise (fun a b => urlKey a ≠ urlKey b)
    ∧ ∀ v ∈ st.fetched, urlKey v ∈ st.visited

/-! ## Concrete scenario webs used by counterexamples and witnesses -/

/-- A same-host URL with the given path on host `h`. -/
def hURL (p : List Char) : GoURL := ⟨"https".toList, "h".toList, p, [], []⟩

/-- The seed page of the concrete scenarios. -/
def exSeed : GoURL := hURL "/".toList

/-- A same-host URL under the hard-excluded `/js/` directory. -/
def exJs : GoURL := hURL "/js/a".toList

/-- Options of a default run: base host `h`, `maxDepth` 5 as set by
`NewMirrorOptions`, no exclude list. -/
def m0 : MirrorOptions := ⟨"h".toList, 5, []⟩

/-- A site whose seed page references the `/js/` URL twice. -/
def webJs : GoURL → Option FetchResult := fun u =>
  if u = exSeed then some ⟨200, .html, [exJs, exJs]⟩ else none

/-- Chain pages `/a1` … `/a5` leading to `/x`, with `/x` also linked from
the seed. -/
def exA : Nat → GoURL := fun i => hURL ('/' :: 'a' :: (Nat.toDigits 10 i))

/-- The target page `/x` of the chain scenario. -/
def exX : GoURL := hURL "/x".toList

/-- A site where `/x` is first discovered through a 6-hop chain (beyond
`maxDepth` 5) and only afterwards through a direct 1-hop seed link. -/
def webChain : GoURL → Option FetchResult := fun u =>
  if u = exSeed then some ⟨200, .html, [exA 1, exX]⟩
  else if u = exA 1 then some ⟨200, .html, [exA 2]⟩
  else if u = exA 2 then some ⟨200, .html, [exA 3]⟩
  else if u = exA 3 then some ⟨200, .html, [exA 4]⟩
  else if u = exA 4 then some ⟨200, .html, [exA 5]⟩
  else if u = exA 5 then some ⟨200, .html, [exX]⟩
  else if u = exX then some ⟨200, .html, []⟩
  else none

/-- A cross-origin URL. -/
def exExt : GoURL := ⟨"https".toList, "evil.example".toList, "/x".toList, [], []⟩

/-- A site whose seed page references a cross-origin URL. -/
def webExt : GoURL → Option FetchResult := fun u =>
  if u = exSeed then some ⟨200, .html, [exExt]⟩
  else if u = exExt then some ⟨200, .html, []⟩
  else none

/-- Two URLs identical except for their query strings. -/
def exQ1 : GoURL := ⟨"https".toList, "h".toList, "/p".toList, "a=1".toList, []⟩

/-- The second query variant. -/
def exQ2 : GoURL := ⟨"https".toList, "h".toList, "/p".toList, "a=2".toList, []⟩

/-- A site whose seed page references both query variants. -/
def webQuery : GoURL → Option FetchResult := fun u =>
  if u = exSeed then some ⟨200, .html, [exQ1, exQ2]⟩
  else if u = exQ1 then some ⟨200, .html, []⟩
  else if u = exQ2 then some ⟨200, .html, []⟩
  else none

/-- A child page used by the 204-status scenario. -/
def exY : GoURL := hURL "/y".toList

/-- A URL whose second path segment is the signed integer `-5`, accepted by
`strconv.Atoi` but not purely numeric. -/
def exNum : GoURL := ⟨"https".toList, "h".toList, "/x/-5".toList, [], []⟩

/-- The base page of the CSS-rewrite scenario. -/
def cssBase : GoURL := ⟨"https".toList, "example.com".toList, "/".toList, [], []⟩

/-- A CSS body with one bare same-host reference. -/
def cssBody : List Char := "background: url(/bg.png);".toList

/-- A site whose seed answers 204 No Content (a 2xx status) with a body
referencing `/y`. -/
def web204 : GoURL → Option FetchResult := fun u =>
  if u = exSeed then some ⟨204, .html, [exY]⟩
  else if u = exY then some ⟨200, .html, []⟩
  else none

/-! ## Crawl invariants -/

theorem StExt.rfl {a : CrawlState} : StExt a a := ⟨fun _ h => h, [], by simp⟩

theorem StExt.trans {a b c : CrawlState} (h1 : StExt a b) (h2 : StExt b c) : StExt a c := by
  obtain ⟨v1, t1, f1⟩ := h1
  obtain ⟨v2, t2, f2⟩ := h2
  exact ⟨fun k hk => v2 k (v1 k hk), t1 ++ t2, by simp [f2, f1]⟩

/-- Any predicate each child call preserves is preserved by the child loop. -/
theorem processChildren_pres {rec : Nat → CrawlState → GoURL → CrawlState}
    {bh : List Char} {skipA : Bool} {depth : Nat} (P : CrawlState → Prop)
    (hrec : ∀ d s v, P s → P (rec d s v)) :
    ∀ (l : List GoURL) (st : CrawlState), P st → P (processChildren rec bh skipA depth st l) := by
  intro l
  induction l with
  | nil => intro st h; simpa [processChildren] using h
  | cons c cs ih =>
    intro st h
    simp only [processChildren]
    apply ih
    split
    · exact h
    · split
      · split
        · exact h
        · exact hrec _ _ _ h
      · exact h

/-- `ProcessUrl` only extends the crawl state: visited keys stay visited and
the fetch log keeps its past entries in order. -/
theorem processUrl_ext (web : GoURL → Option FetchResult) (m : MirrorOptions) :
    ∀ fuel depth st u, StExt st (processUrl web m fuel depth st u) := by
  intro fuel
  induction fuel with
  | zero => intro depth st u; exact StExt.rfl
  | succ f ih =>
    intro depth st u
    simp only [processUrl]
    split
    · exact StExt.rfl
    · rename_i hnv
      have h1 : StExt st ⟨urlKey u :: st.visited, st.fetched⟩ :=
        ⟨fun k hk => List.mem_cons_of_mem _ hk, [], by simp⟩
      split
      · exact h1
      split
      · exact h1
      split
      · exact h1
      split
      · exact h1
      split
      · exact h1
      have h2 : StExt st ⟨urlKey u :: st.visited, st.fetched ++ [u]⟩ :=
        ⟨fun k hk => List.mem_cons_of_mem _ hk, [u], by simp⟩
      have hch : ∀ (skipA : Bool) (links : List GoURL),
          StExt st (processChildren (processUrl web m f) m.baseHost skipA depth
            ⟨urlKey u :: st.visited, st.fetched ++ [u]⟩ links) := by
        intro skipA links
        exact processChildren_pres (StExt st)
          (fun d s v hs => hs.trans (ih d s v)) links _ h2
      split
      · exact h2
      · rename_i r hw
        split
        · exact h2
        · split
          · exact hch true r.links
          · exact hch false r.links
          · exact h2

/-- `ProcessUrl` preserves the at-most-once invariant: a fetch only happens
in the same step that first inserts its key into the visited set, and the
visited set never shrinks. -/
theorem processUrl_keysOk (web : GoURL → Option FetchResult) (m : MirrorOptions) :
    ∀ fuel depth st u, KeysOk st → KeysOk (processUrl web m fuel depth st u) := by
  intro fuel
  induction fuel with
  | zero => intro depth st u h; simpa [processUrl] using h
  | succ f ih =>
    intro depth st u h
    simp only [processUrl]
    split
    · exact h
    · rename_i hnv
      have h1 : KeysOk ⟨urlKey u :: st.visited, st.fetched⟩ :=
        ⟨h.1, fun v hv => List.mem_cons_of_mem _ (h.2 v hv)⟩
      split
      · exact h1
      split
      · exact h1
      split
      · exact h1
      split
      · exact h1
      split
      · exact h1
      have h2 : KeysOk ⟨urlKey u :: st.visited, st.fetched ++ [u]⟩ := by
        constructor
        · refine List.pairwise_append.mpr ⟨h.1, List.pairwise_singleton _ _, ?_⟩
          intro a ha b hb
          have hb' : b = u := by simpa using hb
          subst hb'
          intro hk
          exact hnv (hk ▸ h.2 a ha)
        · intro v hv
          rcases List.mem_append.mp hv with hv1 | hv2
          · exact List.mem_cons_of_mem _ (h.2 v hv1)
          · have : v = u := by simpa using hv2
            subst this
            exact List.mem_cons_self _ _
      have hch : ∀ (skipA : Bool) (links : List GoURL),
          KeysOk (processChildren (processUrl web m f) m.baseHost skipA depth
            ⟨urlKey u :: st.visited, st.fetched ++ [u]⟩ links) := by
        intro skipA links
        exact processChildren_pres KeysOk (fun d s v hs => ih d s v hs) links _ h2
      split
      · exact h2
      · rename_i r hw
        split
        · exact h2
        · split
          · exact hch true r.links
          · exact hch false r.links
          · exact h2

/-- `ProcessUrl` only ever issues an HTTP request for a URL whose host is
empty or equals the configured base host. -/
theorem processUrl_hosts (web : GoURL → Option FetchResult) (m : MirrorOptions) :
    ∀ fuel depth st u,
      (∀ v ∈ st.fetched, v.host = [] ∨ v.host = m.baseHost) →
      ∀ v ∈ (processUrl web m fuel depth st u).fetched, v.host = [] ∨ v.host = m.baseHost := by
  intro fuel
  induction fuel with
  | zero => intro depth st u h; simpa [processUrl] using h
  | succ f ih =>
    intro depth st u h
    simp only [processUrl]
    split
    · exact h
    · rename_i hnv
      split
      · exact h
      split
      · exact h
      rename_i hhost
      split
      · exact h
      split
      · exact h
      split
      · exact h
      have hu : u.host = [] ∨ u.host = m.baseHost := by
        by_cases he : u.host = []
        · exact Or.inl he
        · by_cases hb : u.host = m.baseHost
          · exact Or.inr hb
          · exact absurd ⟨he, hb⟩ hhost
      have h2 : ∀ v ∈ (⟨urlKey u :: st.visited, st.fetched ++ [u]⟩ : CrawlState).fetched,
          v.host = [] ∨ v.host = m.baseHost := by
        intro v hv
        rcases List.mem_append.mp hv with hv1 | hv2
        · exact h v hv1
        · have : v = u := by simpa using hv2
          subst this
          exact hu
      have hch : ∀ (skipA : Bool) (links : List GoURL),
          ∀ v ∈ (processChildren (processUrl web m f) m.baseHost skipA depth
            ⟨urlKey u :: st.visited, st.fetched ++ [u]⟩ links).fetched,
            v.host = [] ∨ v.host = m.baseHost := by
        intro skipA links
        exact processChildren_pres
          (fun s => ∀ v ∈ s.fetched, v.host = [] ∨ v.host = m.baseHost)
          (fun d s v hs => ih d s v hs) links _ h2
      split
      · exact h2
      · rename_i r hw
        split
        · exact h2
        · split
          · exact hch true r.links
          · exact hch false r.links
          · exact h2

/-- A list whose entries have pairwise distinct keys holds at most one entry
with any given key. -/
theorem countP_key_le_one {l : List GoURL}
    (h : l.Pairwise (fun a b => urlKey a ≠ urlKey b)) (k : List Char) :
    l.countP (fun v => urlKey v = k) ≤ 1 := by
  induction l with
  | nil => simp
  | cons a t ih =>
    rcases List.pairwise_cons.mp h with ⟨ha, ht⟩
    by_cases hk : urlKey a = k
    · have hzero : t.countP (fun v => decide (urlKey v = k)) = 0 := by
        refine List.countP_eq_zero.mpr ?_
        intro b hb
        simp only [decide_eq_true_eq]
        intro hbk
        exact ha b hb (hk.trans hbk.symm)
      simp [List.countP_cons, hk, hzero]
    · simpa [List.countP_cons, hk] using ih ht

/-- Every call of `ProcessUrl` with fuel available marks its URL's canonical
key visited, before and regardless of the depth/host/filter checks. -/
theorem processUrl_visits (web : GoURL → Option FetchResult) (m : MirrorOptions) :
    ∀ fuel depth st u, 0 < fuel → urlKey u ∈ (processUrl web m fuel depth st u).visited := by
  intro fuel depth st u hf
  cases fuel with
  | zero => exact absurd hf (by omega)
  | succ f =>
    simp only [processUrl]
    split
    · rename_i hv
      exact hv
    · have hhead : urlKey u ∈ (⟨urlKey u :: st.visited, st.fetched⟩ : CrawlState).visited :=
        List.mem_cons_self _ _
      have hhead2 :
          urlKey u ∈ (⟨urlKey u :: st.visited, st.fetched ++ [u]⟩ : CrawlState).visited :=
        List.mem_cons_self _ _
      split
      · exact hhead
      split
      · exact hhead
      split
      · exact hhead
      split
      · exact hhead
      split
      · exact hhead
      have hch : ∀ (skipA : Bool) (links : List GoURL),
          urlKey u ∈ (processChildren (processUrl web m f) m.baseHost skipA depth
            ⟨urlKey u :: st.visited, st.fetched ++ [u]⟩ links).visited := by
        intro skipA links
        exact processChildren_pres (fun s => urlKey u ∈ s.visited)
          (fun d s v hs => (processUrl_ext web m f d s v).1 _ hs) links _ hhead2
      split
      · exact hhead2
      · rename_i r hw
        split
        · exact hhead2
        · split
          · exact hch true r.links
          · exact hch false r.links
          · exact hhead2

/-! ## Claims about the crawl -/

/-- C1 (counterexample). The claim that a URL referenced more than once
during a crawl is fetched exactly once fails: here the seed page references
the `/js/`-excluded URL twice, the page is fetched and both references are
encountered, yet the number of fetches of that canonical key is zero, not
one. -/
theorem C1_counterexample :
    webJs exSeed = some ⟨200, ContentKind.html, [exJs, exJs]⟩
      ∧ exSeed ∈ (mirrorRun webJs m0 10 exSeed).fetched
      ∧ (mirrorRun webJs m0 10 exSeed).fetched.countP (fun v => urlKey v = urlKey exJs) = 0 := by
  decide

/-- C1 (amended): in any mirror run, each canonical key (scheme+host+path,
fragment and query stripped) is fetched at most once — the visited check and
the insertion happen back to back with no fetch in between in the sequential
traversal, so no canonical key is ever fetched twice. -/
theorem C1_at_most_one_fetch (web : GoURL → Option FetchResult) (m : MirrorOptions)
    (fuel : Nat) (seed : GoURL) (k : List Char) :
    (mirrorRun web m fuel seed).fetched.countP (fun v => urlKey v = k) ≤ 1 := by
  have h := processUrl_keysOk web m fuel 0 ⟨[], []⟩ seed ⟨List.Pairwise.nil, by simp⟩
  exact countP_key_le_one h.1 k

/-- C2 (counterexample). A resource reachable within `maxDepth` hops is not
necessarily fetched: `/x` is linked directly from the seed (1 hop ≤ 5), but
its first discovery comes through a 6-hop chain, which marks it visited
while refusing the fetch; the later 1-hop rediscovery then finds it visited
and it is never fetched. -/
theorem C2_counterexample :
    webChain exSeed = some ⟨200, ContentKind.html, [exA 1, exX]⟩
      ∧ 1 ≤ m0.maxDepth
      ∧ exX ∉ (mirrorRun webChain m0 20 exSeed).fetched := by
  decide

/-- C2 (amended): whenever `currentDepth > maxDepth` holds at dispatch time,
`ProcessUrl` returns without issuing an HTTP request (the fetch log is
unchanged); the converse — that every resource reachable within `maxDepth`
hops is fetched — does not hold. -/
theorem C2_no_fetch_beyond_depth (web : GoURL → Option FetchResult) (m : MirrorOptions)
    (fuel depth : Nat) (st : CrawlState) (u : GoURL) (h : m.maxDepth < depth) :
    (processUrl web m fuel depth st u).fetched = st.fetched := by
  cases fuel with
  | zero => simp [processUrl]
  | succ f =>
    by_cases hv : urlKey u ∈ st.visited
    · simp [processUrl, hv]
    · simp [processUrl, hv, h]

/-- Witness for C2 (amended): dispatching `/x` at depth 6 > 5 leaves the
fetch log empty. -/
theorem C2_no_fetch_beyond_depth_witness :
    (processUrl webChain m0 1 6 ⟨[], []⟩ exX).fetched = [] :=
  C2_no_fetch_beyond_depth webChain m0 1 6 ⟨[], []⟩ exX (by decide)

/-- C3: every URL for which an HTTP request is issued during a crawl has an
empty host (a relative seed) or the base host — a URL with a non-empty host
different from `baseHost` is never fetched, and children are only dispatched
when their resolved host equals `baseHost`. -/
theorem C3_domain_confinement (web : GoURL → Option FetchResult) (m : MirrorOptions)
    (fuel depth : Nat) (st : CrawlState) (u : GoURL)
    (h : ∀ v ∈ st.fetched, v.host = [] ∨ v.host = m.baseHost) :
    ∀ v ∈ (processUrl web m fuel depth st u).fetched, v.host = [] ∨ v.host = m.baseHost :=
  processUrl_hosts web m fuel depth st u h

/-- Witness for C3: in the cross-origin scenario the seed is fetched and its
host is the base host. -/
theorem C3_domain_confinement_witness :
    exSeed.host = [] ∨ exSeed.host = m0.baseHost :=
  C3_domain_confinement webExt m0 10 0 ⟨[], []⟩ exSeed (by simp) exSeed (by decide)

/-- C10: `ProcessUrl` inserts the canonical key before evaluating the
depth/host/`/js/`/exclude/reject checks.  Consequently (i) a call whose key
is already visited returns with the state unchanged, (ii) any call with fuel
marks its key visited even when it returns without fetching, and (iii) in
the chain scenario the URL first discovered beyond the depth limit is never
fetched even though it is rediscovered later at depth 1. -/
theorem C10_mark_before_checks :
    (∀ (web : GoURL → Option FetchResult) (m : MirrorOptions) fuel depth st u,
        (urlKey u ∈ st.visited → processUrl web m fuel depth st u = st)
          ∧ (0 < fuel → urlKey u ∈ (processUrl web m fuel depth st u).visited))
      ∧ exX ∉ (mirrorRun webChain m0 20 exSeed).fetched := by
  constructor
  · intro web m fuel depth st u
    constructor
    · intro hv
      cases fuel with
      | zero => simp [processUrl]
      | succ f => simp [processUrl, hv]
    · exact processUrl_visits web m fuel depth st u
  · decide

/-- Witness for C10: a second call on an already-visited `/js/` key returns
the state unchanged, and a call at depth 9 > `maxDepth` still marks the key
visited. -/
theorem C10_mark_before_checks_witness :
    processUrl webJs m0 5 0 ⟨[urlKey exJs], []⟩ exJs = ⟨[urlKey exJs], []⟩
      ∧ urlKey exJs ∈ (processUrl webJs m0 5 9 ⟨[], []⟩ exJs).visited :=
  ⟨(C10_mark_before_checks.1 webJs m0 5 0 ⟨[urlKey exJs], []⟩ exJs).1 (by decide),
    (C10_mark_before_checks.1 webJs m0 5 9 ⟨[], []⟩ exJs).2 (by decide)⟩

/-- C4 (counterexample). The dedup key does not retain the query:
`ProcessUrl` clears both `Fragment` and `RawQuery` before serializing the
key (mirror.go lines 75-77), so two URLs differing only in their query
strings share one key and only the first is fetched. -/
theorem C4_counterexample :
    urlKey exQ1 = urlKey exQ2
      ∧ exQ1.query ≠ exQ2.query
      ∧ exQ1 ∈ (mirrorRun webQuery m0 10 exSeed).fetched
      ∧ exQ2 ∉ (mirrorRun webQuery m0 10 exSeed).fetched := by
  decide

/-- C4 (amended): the deduplication key of a URL is scheme+host+path with
both the fragment and the query stripped; any two URLs agreeing on scheme,
host and path share a visited-set key regardless of query and fragment. -/
theorem C4_key_ignores_query_and_fragment (u1 u2 : GoURL)
    (hs : u1.scheme = u2.scheme) (hh : u1.host = u2.host) (hp : u1.path = u2.path) :
    urlKey u1 = urlKey u2 := by
  simp only [urlKey, urlString, hs, hh, hp]

/-- Witness for C4 (amended): the two query variants share a key. -/
theorem C4_key_ignores_query_and_fragment_witness : urlKey exQ1 = urlKey exQ2 :=
  C4_key_ignores_query_and_fragment exQ1 exQ2 rfl rfl rfl

/-- C5 (counterexample). A 204 No Content response — a 2xx status — is not
treated as success: the source compares against `http.StatusOK` only
(mirror.go line 167), so the run stops processing that resource and its
child `/y` is never fetched. -/
theorem C5_counterexample :
    web204 exSeed = some ⟨204, ContentKind.html, [exY]⟩
      ∧ 200 ≤ 204 ∧ 204 < 300
      ∧ (mirrorRun web204 m0 10 exSeed).fetched = [exSeed]
      ∧ exY ∉ (mirrorRun web204 m0 10 exSeed).fetched := by
  decide

/-- C5 (amended): a fetch is reported as a failure exactly when the status
is not 200 (or a transport error occurs); for any URL that passes every
pre-fetch check, a non-200 response — 2xx or not — leaves the state with the
key marked and the request logged, but no child processing. -/
theorem C5_only_200_succeeds (web : GoURL → Option FetchResult) (m : MirrorOptions)
    (fuel depth : Nat) (st : CrawlState) (u : GoURL) (r : FetchResult)
    (hf : 0 < fuel)
    (hv : urlKey u ∉ st.visited)
    (hd : ¬ m.maxDepth < depth)
    (hh : ¬ (u.host ≠ [] ∧ u.host ≠ m.baseHost))
    (hjs : containsSub u.path "/js/".toList = false)
    (hex : matchesExclude m.excludePaths u.path = false)
    (hsk : isSkippedExt u.path = false)
    (hw : web u = some r) (hs : r.status ≠ 200) :
    processUrl web m fuel depth st u = ⟨urlKey u :: st.visited, st.fetched ++ [u]⟩ := by
  cases fuel with
  | zero => exact absurd hf (by omega)
  | succ f =>
    simp only [processUrl]
    rw [if_neg hv, if_neg hd, if_neg hh]
    simp only [hjs, hex, hsk, Bool.false_eq_true, if_false, hw]
    rw [if_pos hs]

/-- Witness for C5 (amended): the 204 response leaves exactly the marked key
and the logged request. -/
theorem C5_only_200_succeeds_witness :
    processUrl web204 m0 10 0 ⟨[], []⟩ exSeed = ⟨[urlKey exSeed], [exSeed]⟩ :=
  C5_only_200_succeeds web204 m0 10 0 ⟨[], []⟩ exSeed ⟨204, ContentKind.html, [exY]⟩
    (by decide) (by decide) (by decide) (by decide) (by decide) (by decide) (by decide)
    (by decide) (by decide)

/-! ## The path-mapper refinement (C6) -/

theorem goSplitAux_ne_nil (sep : Char) : ∀ (l acc : List Char), goSplitAux sep l acc ≠ [] := by
  intro l
  induction l with
  | nil => intro acc; simp [goSplitAux]
  | cons c cs ih =>
    intro acc
    by_cases hc : c = sep
    · simp [goSplitAux, hc]
    · simpa [goSplitAux, hc] using ih (c :: acc)

theorem goSplit_length_pos (sep : Char) (l : List Char) : 0 < (goSplit sep l).length := by
  have h := goSplitAux_ne_nil sep l []
  cases hg : goSplitAux sep l [] with
  | nil => exact absurd hg h
  | cons a t => simp [goSplit, hg]

theorem goSplit_slash_cons (cs : List Char) : goSplit '/' ('/' :: cs) = [] :: goSplit '/' cs := by
  simp [goSplit, goSplitAux]

theorem goTrimPrefixL_slash_cons (cs : List Char) : goTrimPrefixL ['/'] ('/' :: cs) = cs := by
  simp [goTrimPrefixL, List.isPrefixOf]

theorem goTrimPrefixL_slash_other {c : Char} (hc : c ≠ '/') (cs : List Char) :
    goTrimPrefixL ['/'] (c :: cs) = c :: cs := by
  simp [goTrimPrefixL, List.isPrefixOf, Ne.symm hc]

/-- The numeric-segment scan over the full path equals the scan over the
RFC path segments: the extra empty piece a leading slash contributes is not
numeric. -/
theorem containsNumericID_eq (path : List Char) :
    containsNumericID path = (goSplit '/' (goTrimPrefixL ['/'] path)).any isNumericGo := by
  cases path with
  | nil => rfl
  | cons c cs =>
    by_cases hc : c = '/'
    · subst hc
      rw [containsNumericID, goTrimPrefixL_slash_cons, goSplit_slash_cons]
      simp [isNumericGo]
    · rw [containsNumericID, goTrimPrefixL_slash_other hc]

theorem list_any_or {α : Type} (l : List α) (f g : α → Bool) :
    l.any (fun x => f x || g x) = (l.any f || l.any g) := by
  induction l with
  | nil => rfl
  | cons a t ih =>
    simp only [List.any_cons, ih]
    cases f a <;> cases g a <;> simp

theorem goCleanL_ne_nil (p : List Char) : goCleanL p ≠ [] := by
  rw [goCleanL]
  split
  · simp
  · simp only []
    split
    · simp
    · split
      · simp
      · rename_i hb
        exact hb

theorem goJoin_eq_nil_iff (elems : List (List Char)) :
    goJoin elems = [] ↔ elems.filter (fun e => e ≠ []) = [] := by
  rw [goJoin]
  constructor
  · intro h
    by_contra hne
    rw [if_neg hne] at h
    exact goCleanL_ne_nil _ h
  · intro h
    rw [if_pos h]

/-- C6 (counterexample). The path-mapper rules as worded fail on the segment
`-5`: `strconv.Atoi` accepts it, so the code files the path with segments
`x`, `-5` under `pages/`, while a purely numeric reading of rule 2 would
leave it on the default rule. -/
theorem C6_counterexample :
    convertToLocalPath exNum = "h/pages/x/-5/index.html".toList
      ∧ specLocalPath digitsOnly exNum = "h/x/-5/index.html".toList
      ∧ convertToLocalPath exNum ≠ specLocalPath digitsOnly exNum := by
  decide

/-- C6 (amended): `convertToLocalPath` is a pure function (deterministic by
construction) and coincides, on every URL, with the specification's three
rules applied in order, once rule 2's "purely numeric segment" is read as
"segment accepted by `strconv.Atoi`" (optionally signed decimal integer
within the 64-bit range). -/
theorem C6_local_path_rules (u : GoURL) :
    convertToLocalPath u = specLocalPath isNumericGo u := by
  simp only [convertToLocalPath, specLocalPath]
  rw [if_pos (goSplit_length_pos '/' (goTrimPrefixL ['/'] u.path))]
  rw [containsNumericID_eq u.path]
  rw [show containsDynamicSegments (goSplit '/' (goTrimPrefixL ['/'] u.path))
        = (goSplit '/' (goTrimPrefixL ['/'] u.path)).any
            (fun s => dynamicPatterns.any (fun pat => goEqualFold s pat)) from rfl]
  rw [← list_any_or]
  by_cases hp : goJoin [u.host, goTrimPrefixL ['/'] u.path] = []
  · have hh : u.host = [] := by
      have := (goJoin_eq_nil_iff [u.host, goTrimPrefixL ['/'] u.path]).mp hp
      by_contra hne
      simp [List.filter, hne] at this
    simp [hp, hh]
  · simp [hp]

/-! ## The stray quote in the bare CSS rewrite (C7) -/

/-- C7 (code bug). When link conversion is on and a CSS body holds a bare
reference `url(/bg.png)` whose resolved host is the base host, the source
replaces it with `url(bg.png')` — the replacement string at mirror.go line
376 (and lines 273, 319) is built as `url(%s')` with a stray single quote —
instead of the in-place `url(bg.png)` the specification describes. -/
theorem C7_bare_css_rewrite_bug :
    rewriteCSSContent true "example.com".toList cssBase cssBody
        = "background: url(bg.png".toList ++ sq :: ");".toList
      ∧ rewriteCSSContent true "example.com".toList cssBase cssBody
        ≠ "background: url(bg.png);".toList := by
  decide

/-! ## Rate-limit parsing (C8) -/

/-- A decimal digit's code point lies between 48 and 57. -/
theorem isDigit_toNat_bounds {c : Char} (h : c.isDigit = true) :
    48 ≤ c.toNat ∧ c.toNat ≤ 57 := by
  simp only [Char.isDigit, Bool.and_eq_true, decide_eq_true_eq] at h
  exact ⟨h.1, h.2⟩

/-- The character facts the rate-limit proof needs about a decimal digit:
lowercasing fixes it and it is none of the characters the parser treats
specially. -/
theorem digit_facts {c : Char} (h : c.isDigit = true) :
    c.toLower = c ∧ c ≠ 'k' ∧ c ≠ 'm' ∧ c ≠ ' ' ∧ c ≠ Char.ofNat 9 ∧ c ≠ Char.ofNat 10
      ∧ c ≠ '-' ∧ c ≠ '+' := by
  obtain ⟨h1, h2⟩ := isDigit_toNat_bounds h
  refine ⟨?_, ?_, ?_, ?_, ?_, ?_, ?_, ?_⟩
  · simp only [Char.toLower]
    rw [if_neg]
    omega
  all_goals
    intro he
    rw [he] at h1 h2
    revert h1 h2
    decide

/-- Lowercasing is the identity on digit strings. -/
theorem goToLower_digits {s : List Char} (h : s.all Char.isDigit = true) : goToLower s = s := by
  induction s with
  | nil => rfl
  | cons c cs ih =>
    simp only [List.all_cons, Bool.and_eq_true] at h
    simp only [goToLower, List.map_cons] at ih ⊢
    rw [(digit_facts h.1).1, ih h.2]

/-- A string extended with a final character has that character as suffix. -/
theorem hasSuffix_append_single (s : List Char) (c : Char) :
    goHasSuffixL (s ++ [c]) [c] = true := by
  simp [goHasSuffixL, List.isPrefixOf]

/-- A string none of whose characters equals `k` does not end in `k`. -/
theorem hasSuffix_single_false {s : List Char} {k : Char} (hne : s ≠ [])
    (hall : ∀ d ∈ s, d ≠ k) : goHasSuffixL s [k] = false := by
  cases hr : s.reverse with
  | nil => exact absurd (by simpa using congrArg List.reverse hr) hne
  | cons d t =>
    have hd : d ∈ s := by
      have : d ∈ s.reverse := by rw [hr]; exact List.mem_cons_self _ _
      simpa using this
    have : (k == d) = false := by
      simp only [beq_eq_false_iff_ne]
      exact Ne.symm (hall d hd)
    simp [goHasSuffixL, hr, List.isPrefixOf, this]

/-- Trimming the final character just appended returns the original string. -/
theorem goTrimSuffixL_append_single (s : List Char) (c : Char) :
    goTrimSuffixL (s ++ [c]) [c] = s := by
  simp only [goTrimSuffixL, hasSuffix_append_single, if_true]
  simp [List.take_left]

/-- `takeWhile` keeps a list all of whose elements satisfy the predicate. -/
theorem takeWhile_all_eq {p : Char → Bool} :
    ∀ {s : List Char}, s.all p = true → s.takeWhile p = s := by
  intro s h
  induction s with
  | nil => rfl
  | cons c cs ih => simp_all [List.takeWhile_cons]

/-- The scan parser accepts a digit string and returns its decimal value. -/
theorem goSscanfInt_digits {s : List Char} (hne : s ≠ []) (hdig : s.all Char.isDigit = true)
    (hbound : (digitsVal s : Int) ≤ 2 ^ 63 - 1) :
    goSscanfInt s = some ((digitsVal s : Nat) : Int) := by
  obtain ⟨c, cs, rfl⟩ : ∃ c cs, s = c :: cs := by
    cases s with
    | nil => exact absurd rfl hne
    | cons c cs => exact ⟨c, cs, rfl⟩
  have hc : c.isDigit = true := by
    simp only [List.all_cons, Bool.and_eq_true] at hdig
    exact hdig.1
  obtain ⟨-, -, -, hsp, ht9, ht10, hminus, hplus⟩ := digit_facts hc
  simp only [goSscanfInt]
  have hws : (decide (c = ' ') || decide (c = Char.ofNat 9) || decide (c = Char.ofNat 10))
      = false := by
    simp [hsp, ht9, ht10]
  have hmatch :
      (match c :: cs with
        | '-' :: r => (true, r)
        | '+' :: r => (false, r)
        | r => (false, r)) = (false, c :: cs) := by
    split
    · rename_i heq
      cases heq
      exact absurd rfl hminus
    · rename_i heq
      cases heq
      exact absurd rfl hplus
    · rfl
  rw [List.dropWhile_cons, hws]
  simp only [Bool.false_eq_true, if_false, hmatch, takeWhile_all_eq hdig]
  have hd1 : ¬ (c :: cs = ([] : List Char)) := by simp
  rw [if_neg hd1]
  have hd2 : (decide ((digitsVal (c :: cs) : Int) < -(2 ^ 63))
      || decide ((digitsVal (c :: cs) : Int) > 2 ^ 63 - 1)) = false := by
    simp only [Bool.or_eq_false_iff, decide_eq_false_iff_not, not_lt, gt_iff_lt]
    constructor
    · omega
    · omega
  simp only [Bool.false_eq_true, if_false, hd2]

/-- Integers already inside the signed 64-bit range wrap to themselves. -/
theorem wrap64_eq_self {z : Int} (h0 : 0 ≤ z) (h1 : z ≤ 2 ^ 63 - 1) : wrap64 z = z := by
  have hm : (z + 2 ^ 63) % 2 ^ 64 = z + 2 ^ 63 := Int.emod_eq_of_lt (by omega) (by omega)
  simp only [wrap64, hm]
  omega

/-- C8: `ParseRateLimit` maps `10k` to 10240, `5m` to 5242880 and `100` to
100; in general, for a digit string valuing `n` (with the products in the
64-bit range), a trailing `k` multiplies by 1024, a trailing `m` multiplies
by 1048576, and no suffix parses the plain integer. -/
theorem C8_parse_rate_limit (s : List Char) (n : Nat)
    (hne : s ≠ []) (hdig : s.all Char.isDigit = true) (hval : digitsVal s = n)
    (hbound : (n : Int) * (1024 * 1024) ≤ 2 ^ 63 - 1) :
    ParseRateLimit (s ++ ['k']) = some ((n : Int) * 1024)
      ∧ ParseRateLimit (s ++ ['m']) = some ((n : Int) * (1024 * 1024))
      ∧ ParseRateLimit s = some (n : Int)
      ∧ ParseRateLimit "10k".toList = some 10240
      ∧ ParseRateLimit "5m".toList = some 5242880
      ∧ ParseRateLimit "100".toList = some 100 := by
  subst hval
  have hn1 : (digitsVal s : Int) ≤ 2 ^ 63 - 1 := by
    have : (digitsVal s : Int) ≤ (digitsVal s : Int) * (1024 * 1024) := by
      nlinarith [Int.ofNat_nonneg (digitsVal s)]
    omega
  have hn1024 : (digitsVal s : Int) * 1024 ≤ 2 ^ 63 - 1 := by
    have : (digitsVal s : Int) * 1024 ≤ (digitsVal s : Int) * (1024 * 1024) := by
      nlinarith [Int.ofNat_nonneg (digitsVal s)]
    omega
  have hparse := goSscanfInt_digits hne hdig hn1
  have hdigall : ∀ d ∈ s, d.isDigit = true := by
    intro d hd
    exact List.all_eq_true.mp hdig d hd
  refine ⟨?_, ?_, ?_, by decide, by decide, by decide⟩
  · simp only [ParseRateLimit, goToLower, List.map_append, List.map_cons, List.map_nil]
    rw [show Char.toLower 'k' = 'k' from rfl]
    rw [show (List.map Char.toLower s) = s from goToLower_digits hdig]
    rw [if_pos (hasSuffix_append_single s 'k'), goTrimSuffixL_append_single s 'k']
    rw [hparse]
    simp only [Option.some.injEq]
    apply wrap64_eq_self
    · omega
    · exact hn1024
  · simp only [ParseRateLimit, goToLower, List.map_append, List.map_cons, List.map_nil]
    rw [show Char.toLower 'm' = 'm' from rfl]
    rw [show (List.map Char.toLower s) = s from goToLower_digits hdig]
    have hk : goHasSuffixL (s ++ ['m']) ['k'] = false := by
      refine hasSuffix_single_false (by simp) ?_
      intro d hd
      rcases List.mem_append.mp hd with hd1 | hd2
      · exact (digit_facts (hdigall d hd1)).2.1
      · have : d = 'm' := by simpa using hd2
        subst this
        decide
    rw [show (if goHasSuffixL (s ++ ['m']) ['k'] = true then
          ((1024 : Int), goTrimSuffixL (s ++ ['m']) ['k'])
        else if goHasSuffixL (s ++ ['m']) ['m'] = true then
          ((1024 * 1024 : Int), goTrimSuffixL (s ++ ['m']) ['m'])
        else ((1 : Int), s ++ ['m']))
        = ((1024 * 1024 : Int), s) from by
      rw [if_neg (by simp [hk]), if_pos (hasSuffix_append_single s 'm'),
        goTrimSuffixL_append_single s 'm']]
    rw [hparse]
    simp only [Option.some.injEq]
    apply wrap64_eq_self
    · omega
    · exact hbound
  · simp only [ParseRateLimit, goToLower]
    rw [show (List.map Char.toLower s) = s from goToLower_digits hdig]
    have hk : goHasSuffixL s ['k'] = false :=
      hasSuffix_single_false hne fun d hd => (digit_facts (hdigall d hd)).2.1
    have hm : goHasSuffixL s ['m'] = false :=
      hasSuffix_single_false hne fun d hd => (digit_facts (hdigall d hd)).2.2.1
    rw [if_neg (by simp [hk]), if_neg (by simp [hm])]
    rw [hparse]
    simp only [Option.some.injEq, mul_one]
    apply wrap64_eq_self
    · omega
    · simpa using hn1

/-! ## Rate-limited writer timing (C9) -/

/-- C9 (counterexample). The global `B/R` lower bound fails: at bandwidth
2·10⁹ bytes/sec, two 1-byte writes each expect `⌊10⁹/(2·10⁹)⌋ = 0` ns of
pacing, so both return immediately and the total time (0) is strictly below
`B/R` seconds (total·R < B·10⁹ ns·bytes). -/
theorem C9_counterexample :
    totalDuration 2000000000 [(1, 0), (1, 0)] = 0
      ∧ totalDuration 2000000000 [(1, 0), (1, 0)] * 2000000000 < 2 * 1000000000 := by
  decide

/-- Per-write accumulator bound: folding the write durations dominates the
sum of the expected (integer-truncated) durations. -/
theorem totalDuration_ge_sum (bandwidth : Nat) :
    ∀ (writes : List (Nat × Nat)) (acc : Nat),
      acc + (writes.map (fun w => expectedWriteTime w.1 bandwidth)).sum
        ≤ writes.foldl (fun a w => a + writeDuration w.1 bandwidth w.2) acc := by
  intro writes
  induction writes with
  | nil => intro acc; simp
  | cons w ws ih =>
    intro acc
    simp only [List.map_cons, List.sum_cons, List.foldl_cons]
    have h1 : expectedWriteTime w.1 bandwidth ≤ writeDuration w.1 bandwidth w.2 := by
      simp only [writeDuration, sleepDuration]
      split
      · omega
      · omega
    have h2 := ih (acc + writeDuration w.1 bandwidth w.2)
    omega

/-- C9 (amended): after a successful write of `n` bytes the writer sleeps
exactly `max(0, ⌊n·10⁹/R⌋ − elapsed)` nanoseconds, so each `Write` call
takes at least `⌊n·10⁹/R⌋` ns and a sequence of writes takes at least the
sum of those per-write floors; because each expected duration is truncated
to whole nanoseconds, the total can fall short of `B/R` seconds. -/
theorem C9_rate_limit_floor (n bandwidth elapsed : Nat) (writes : List (Nat × Nat))
    (hb : 0 < bandwidth) :
    sleepDuration n bandwidth elapsed = expectedWriteTime n bandwidth - elapsed
      ∧ expectedWriteTime n bandwidth ≤ writeDuration n bandwidth elapsed
      ∧ (writes.map (fun w => expectedWriteTime w.1 bandwidth)).sum
          ≤ totalDuration bandwidth writes := by
  refine ⟨?_, ?_, ?_⟩
  · simp only [sleepDuration]
    split
    · rfl
    · omega
  · simp only [writeDuration, sleepDuration]
    split
    · omega
    · omega
  · simpa using totalDuration_ge_sum bandwidth writes 0

/-- Witness for C9 (amended) at a 100-byte write through a 1024 bytes/sec
writer. -/
theorem C9_rate_limit_floor_witness :
    sleepDuration 100 1024 0 = expectedWriteTime 100 1024 - 0
      ∧ expectedWriteTime 100 1024 ≤ writeDuration 100 1024 0
      ∧ ([((100 : Nat), (0 : Nat))].map (fun w => expectedWriteTime w.1 1024)).sum
          ≤ totalDuration 1024 [(100, 0)] :=
  C9_rate_limit_floor 100 1024 0 [(100, 0)] (by decide)

/-- Witness for C8 at the digit string `10`. -/
theorem C8_parse_rate_limit_witness :
    ParseRateLimit ("10".toList ++ ['k']) = some ((10 : Nat) * 1024)
      ∧ ParseRateLimit ("10".toList ++ ['m']) = some ((10 : Nat) * (1024 * 1024))
      ∧ ParseRateLimit "10".toList = some (10 : Nat) :=
  ⟨(C8_parse_rate_limit "10".toList 10 (by decide) (by decide) (by decide) (by decide)).1,
    (C8_parse_rate_limit "10".toList 10 (by decide) (by decide) (by decide) (by decide)).2.1,
    (C8_parse_rate_limit "10".toList 10 (by decide) (by decide) (by decide) (by decide)).2.2.1⟩

end Wget
